import Mathlib

/-!
Verification development for the BoIS boolean-search repository.

The development shallowly embeds the two core modules:

* `src/3_indexation/inverted_index.py` — the inverted-index builder
  (`resolve_output`, `get_lemmas_from_lemma_file`, `process_lemmas_directory`);
* `src/3_indexation/boolean_search.py` — the query engine
  (`SearchEngine._tokenize_query`, `_to_postfix`, `_get_indexes_by_token`,
  `process_query`).

Modelling conventions:

* a lemma file is a list of lines, each line already split on whitespace
  into its columns (`List String`); an empty column list models a
  whitespace-only line, on which `line.split(maxsplit=1)[0]` raises
  `IndexError`;
* Python dicts are modelled as insertion-ordered association lists; the
  dict operations used by the code (membership test, lookup, value update,
  insertion at the end) are mirrored on the list representation;
* Python `set[int]` / `set[str]` values are modelled as `Finset`;
* Python `None` leaking out of `dict.get` is modelled by `Option`;
* exceptions are modelled by `Option`/`Except`: `QueryError.malformed` is
  the `ValueError` that the spec calls `MalformedQueryError`, and
  `QueryError.typeErr` is the `TypeError` produced by a set operation on
  `None`.
-/

namespace BoIS

/-! Inverted index builder (`inverted_index.py`) -/

/-- Embedding of `get_lemmas_from_lemma_file`: the first column of every
line of the file, in order; `none` models the `IndexError` raised by
`line.split(maxsplit=1)[0]` on a whitespace-only line. -/
def getLemmasFromLemmaFile : List (List String) → Option (List String)
  | [] => some []
  | line :: rest =>
    match line.head?, getLemmasFromLemmaFile rest with
    | some w, some ws => some (w :: ws)
    | _, _ => none

/-- One step of the builder loop body: `if lemma not in d: d[lemma] = []`
followed by `d[lemma].append(file_index)`, on the association-list model of
the Python dict `lemma_to_file_indexes`. -/
def addLemma : List (String × List ℕ) → String → ℕ → List (String × List ℕ)
  | [], w, d => [(w, [d])]
  | p :: rest, w, d =>
    if p.1 = w then (p.1, p.2 ++ [d]) :: rest else p :: addLemma rest w d

/-- The inner `for lemma in lemmas` loop of `process_lemmas_directory` for
one document `d` with extracted first columns `ws`. -/
def addFile (idx : List (String × List ℕ)) (d : ℕ) (ws : List String) :
    List (String × List ℕ) :=
  ws.foldl (fun i w => addLemma i w d) idx

/-- The outer `for file_index, lemma_file_path in lemmas_file_paths.items()`
loop of `process_lemmas_directory`, over already-extracted lemma columns. -/
def buildCore (files : List (ℕ × List String)) : List (String × List ℕ) :=
  files.foldl (fun i p => addFile i p.1 p.2) []

/-- Extraction pass: read every lemma file via `getLemmasFromLemmaFile`;
the first `IndexError` aborts the whole build (`none`). -/
def extractFiles : List (ℕ × List (List String)) → Option (List (ℕ × List String))
  | [] => some []
  | p :: rest =>
    match getLemmasFromLemmaFile p.2, extractFiles rest with
    | some ls, some qs => some ((p.1, ls) :: qs)
    | _, _ => none

/-- Embedding of the index-building part of `process_lemmas_directory`:
the input is the items of the dict built by `get_lemmas_file_paths`
(document id paired with the content of its lemma file), in dict iteration
order, i.e. the order in which `os.listdir` produced the files.  `none`
models the exception path (some lemma file has a whitespace-only line). -/
def buildInvertedIndex (files : List (ℕ × List (List String))) :
    Option (List (String × List ℕ)) :=
  (extractFiles files).map buildCore

/-- Lookup in the association-list model of a Python dict. -/
def lookupIdx : List (String × List ℕ) → String → Option (List ℕ)
  | [], _ => none
  | p :: rest, w => if p.1 = w then some p.2 else lookupIdx rest w

/-- The ids contributed to lemma `w` by one document `d` whose extracted
lemma column list is `ws`: one copy of `d` per line whose first column is
`w`. -/
def occIn (w : String) (ws : List String) (d : ℕ) : List ℕ :=
  (ws.filter (fun x => x = w)).map (fun _ => d)

/-- All ids contributed to lemma `w` by the files, in file order. -/
def occAll (w : String) (files : List (ℕ × List String)) : List ℕ :=
  files.flatMap (fun p => occIn w p.2 p.1)

/-! Query engine (`boolean_search.py`) -/

/-- Python `str.lower`, restricted to the character ranges this repository
exercises: ASCII letters and the Cyrillic block (А-Я, Ё). -/
def lowerChar (c : Char) : Char :=
  if 65 ≤ c.toNat ∧ c.toNat ≤ 90 then Char.ofNat (c.toNat + 32)
  else if 0x410 ≤ c.toNat ∧ c.toNat ≤ 0x42F then Char.ofNat (c.toNat + 32)
  else if c.toNat = 0x401 then Char.ofNat 0x451
  else c

/-- Python `str.upper`, restricted to ASCII letters and the Cyrillic
block. -/
def upperChar (c : Char) : Char :=
  if 97 ≤ c.toNat ∧ c.toNat ≤ 122 then Char.ofNat (c.toNat - 32)
  else if 0x430 ≤ c.toNat ∧ c.toNat ≤ 0x44F then Char.ofNat (c.toNat - 32)
  else if c.toNat = 0x451 then Char.ofNat 0x401
  else c

def upperStr (s : String) : String := (s.data.map upperChar).asString

def lowerStr (s : String) : String := (s.data.map lowerChar).asString

/-- Characters matched by the `\w` class of the tokenizer regular
expression `\(|\)|\bAND\b|\bOR\b|\bNOT\b|\w+`, restricted to the
ranges this repository exercises (ASCII word characters and the Cyrillic
block). -/
def isWordChar (c : Char) : Bool :=
  c.isAlphanum || c = '_' || (0x400 ≤ c.toNat && c.toNat < 0x500)

/-- Emit the pending word-character run (if non-empty) in front of the
already-produced tokens. -/
def flushRun (acc : List Char) (rest : List String) : List String :=
  if acc.isEmpty then rest else acc.reverse.asString :: rest

/-- Scanner equivalent of `re.findall` for the tokenizer pattern: the
matches are single parentheses and maximal runs of word characters; all
other characters separate tokens.  `acc` holds the current run in reverse
order. -/
def scanAux : List Char → List Char → List String
  | [], acc => flushRun acc []
  | c :: cs, acc =>
    if isWordChar c then scanAux cs (c :: acc)
    else if c = '(' || c = ')' then flushRun acc (String.singleton c :: scanAux cs [])
    else flushRun acc (scanAux cs [])

/-- The five strings whose case-insensitive matches the tokenizer
normalizes to upper case. -/
def kwList : List String := ["AND", "OR", "NOT", "(", ")"]

/-- The normalization step of `_tokenize_query`:
`t.upper() if t.upper() in ['AND', 'OR', 'NOT', '(', ')'] else t.lower()`. -/
def tokenMap (t : String) : String :=
  if upperStr t ∈ kwList then upperStr t else lowerStr t

/-- Embedding of `SearchEngine._tokenize_query`. -/
def tokenizeQuery (q : String) : List String :=
  (scanAux q.data []).map tokenMap

/-- Operator precedence dict `{'NOT': 3, 'AND': 2, 'OR': 1}`; `none` models
a key miss. -/
def opPrec (t : String) : Option ℕ :=
  if t = "NOT" then some 3 else if t = "AND" then some 2
  else if t = "OR" then some 1 else none

/-- Python `precedence.get(o, 0)`. -/
def precD (t : String) : ℕ := (opPrec t).getD 0

/-- Embedding of the shunting-yard loop of `_to_postfix`; `out` is the
output queue, `ops` the operator stack with its top at the head. -/
def toPostfixAux : List String → List String → List String → List String
  | [], out, ops => out ++ ops
  | t :: ts, out, ops =>
    if (opPrec t).isNone ∧ t ≠ "(" ∧ t ≠ ")" then
      toPostfixAux ts (out ++ [t]) ops
    else if t = "(" then
      toPostfixAux ts out (t :: ops)
    else if t = ")" then
      let popped := ops.takeWhile (fun o => o != "(")
      let rest := ops.dropWhile (fun o => o != "(")
      let rest2 := if rest.head? = some ("(") then rest.tail else rest
      toPostfixAux ts (out ++ popped) rest2
    else
      let popped := ops.takeWhile (fun o => o != "(" && decide (precD t ≤ precD o))
      let rest := ops.dropWhile (fun o => o != "(" && decide (precD t ≤ precD o))
      toPostfixAux ts (out ++ popped) (t :: rest)

/-- Embedding of `SearchEngine._to_postfix`. -/
def toPostfixQueue (tokens : List String) : List String :=
  toPostfixAux tokens [] []

/-- The state loaded by `SearchEngine.__init__`: the three dicts, each as
an insertion-ordered association list. -/
structure SearchEngine where
  invertedIndex : List (String × Finset ℕ)
  lemmas : List (String × Finset String)
  htmls : List (ℕ × String)

/-- Python `dict.get(k)`: `none` models `None`. -/
def lookupD {α β : Type} [DecidableEq α] : List (α × β) → α → Option β
  | [], _ => none
  | p :: rest, k => if p.1 = k then some p.2 else lookupD rest k

/-- Embedding of `SearchEngine._get_indexes_by_token`: a direct index hit
returns its posting set; otherwise the first lemma whose token set contains
the token is looked up in the index — the result of `dict.get` is returned
unchecked and may be `None`; otherwise the default is returned. -/
def getIndexesByToken (e : SearchEngine) (token : String) (default : Finset ℕ) :
    Option (Finset ℕ) :=
  if (lookupD e.invertedIndex token).isSome then lookupD e.invertedIndex token
  else
    match e.lemmas.find? (fun p => decide (token ∈ p.2)) with
    | some p => lookupD e.invertedIndex p.1
    | none => some default

/-- Python `all_docs = set(self.htmls.keys())`, recomputed by every
`process_query` call: only ids present in the document table. -/
def allDocs (e : SearchEngine) : Finset ℕ :=
  (e.htmls.map Prod.fst).toFinset

/-- The two exception kinds `process_query` can raise: `malformed` is the
`ValueError` the spec calls `MalformedQueryError`; `typeErr` is the
`TypeError` of a set operation applied to `None`. -/
inductive QueryError : Type
  | malformed : QueryError
  | typeErr : QueryError
deriving DecidableEq

/-- One iteration of the evaluation loop of `process_query`: stack top at
the head; operand popping, the universe subtraction for `NOT`, and
`left & right` / `left | right` for `AND` / `OR`. -/
def qstep (e : SearchEngine) (stack : List (Option (Finset ℕ))) (t : String) :
    Except QueryError (List (Option (Finset ℕ))) :=
  if t = "AND" ∨ t = "OR" ∨ t = "NOT" then
    if t = "NOT" then
      match stack with
      | [] => .error .malformed
      | some s :: rest => .ok (some (allDocs e \ s) :: rest)
      | none :: _ => .error .typeErr
    else
      match stack with
      | r :: l :: rest =>
        match l, r with
        | some ls, some rs =>
          .ok (some (if t = "AND" then ls ∩ rs else ls ∪ rs) :: rest)
        | _, _ => .error .typeErr
      | _ => .error .malformed
  else
    .ok (getIndexesByToken e t ∅ :: stack)

/-- The whole evaluation loop over a postfix program. -/
def evalFold (e : SearchEngine) (ts : List String)
    (stack : List (Option (Finset ℕ))) :
    Except QueryError (List (Option (Finset ℕ))) :=
  ts.foldlM (qstep e) stack

/-- The final checks of `process_query`: `len(stack) != 1` raises the
malformed-query error; `sorted(list(None))` raises `TypeError`. -/
def finishRun : List (Option (Finset ℕ)) → Except QueryError (Finset ℕ)
  | [some s] => .ok s
  | [none] => .error .typeErr
  | _ => .error .malformed

/-- Evaluation of a postfix program down to the final document-id set. -/
def runProgram (e : SearchEngine) (ts : List String) :
    Except QueryError (Finset ℕ) :=
  match evalFold e ts [] with
  | .ok st => finishRun st
  | .error err => .error err

/-- Embedding of `process_query` up to (and excluding) the final mapping
through the document table: the surviving document-id set. -/
def processQuerySet (e : SearchEngine) (q : String) :
    Except QueryError (Finset ℕ) :=
  runProgram e (toPostfixQueue (tokenizeQuery q))

/-- Python `sorted(list(s))` on a set of ints: ascending order. -/
def pySorted (s : Finset ℕ) : List ℕ := s.sort (· ≤ ·)

/-- Embedding of `process_query`, including the final
`[self.htmls.get(idx) for idx in sorted(list(stack[0]))]`: ids with no
document-table entry yield `none` entries. -/
def processQuery (e : SearchEngine) (q : String) :
    Except QueryError (List (Option String)) :=
  match processQuerySet e q with
  | .ok s => .ok ((pySorted s).map (lookupD e.htmls))
  | .error err => .error err

/-- Decidable equality for `Except`, for concrete evaluation of query
results. -/
instance {ε α : Type} [DecidableEq ε] [DecidableEq α] : DecidableEq (Except ε α) :=
  fun a b =>
    match a, b with
    | .ok x, .ok y =>
      decidable_of_iff (x = y) ⟨fun h => h ▸ rfl, fun h => Except.ok.inj h⟩
    | .error x, .error y =>
      decidable_of_iff (x = y) ⟨fun h => h ▸ rfl, fun h => Except.error.inj h⟩
    | .ok _, .error _ => isFalse (fun h => Except.noConfusion h)
    | .error _, .ok _ => isFalse (fun h => Except.noConfusion h)

/-- Structural operand count of a postfix program: `some m` is the stack
size after consuming all instructions, `none` an operand underflow; the
program is structurally valid when the final count is 1. -/
def programArity : List String → ℕ → Option ℕ
  | [], n => some n
  | t :: ts, n =>
    if t = "NOT" then (if n = 0 then none else programArity ts n)
    else if t = "AND" ∨ t = "OR" then (if n < 2 then none else programArity ts (n - 1))
    else programArity ts (n + 1)

/-- Structural validity of a postfix program. -/
def structuralOk (ts : List String) : Prop := programArity ts 0 = some 1

/-- Modelled from the spec: the DocumentUniverse described in the data
model section — "the set of all ids with at least one posting or appearing
in the document table".  The code has no such definition; `process_query`
uses only `set(self.htmls.keys())` (see `allDocs`). -/
def specUniverse (e : SearchEngine) : Finset ℕ :=
  (e.invertedIndex.foldr (fun p acc => p.2 ∪ acc) ∅) ∪ allDocs e

/-! Output-path resolution (`resolve_output`). The filesystem is modelled
as the list of names existing in the output directory; a path is split
into its stem and suffix as by `pathlib.Path`. -/

/-- The candidate name `f"{stem}_{counter}{suffix}"`. -/
def candidateName (stem suffix : String) (n : ℕ) : String :=
  stem ++ "_" ++ Nat.repr n ++ suffix

/-- The `while True` loop of `resolve_output`, returning the first counter
whose candidate name is free.  The loop is bounded by an explicit fuel;
`fuel = fs.length + 1` always suffices (`exists_free_in_range` below), so
the bounded loop computes the same counter as the unbounded Python loop. -/
def firstFreeAux (fs : List String) (stem suffix : String) : ℕ → ℕ → ℕ
  | 0, c => c
  | fuel + 1, c =>
    if candidateName stem suffix c ∈ fs then firstFreeAux fs stem suffix fuel (c + 1)
    else c

/-- Embedding of `resolve_output`. -/
def resolveOutput (fs : List String) (stem suffix : String) : String :=
  if (stem ++ suffix) ∈ fs then
    candidateName stem suffix (firstFreeAux fs stem suffix (fs.length + 1) 1)
  else stem ++ suffix

/-- The `ProcessingResult` dataclass of `inverted_index.py`. -/
structure ProcessingResult : Type where
  file_path : Option String
  error : Option String

/-- Embedding of `process_lemmas_directory`: input validation, output-path
resolution, index building; the second component is the file write that
happens on success (path used, serialized content). -/
def processLemmasDirectory (fs : List String) (stem suffix : String)
    (files : List (ℕ × List (List String))) :
    ProcessingResult × Option (String × List (String × List ℕ)) :=
  if files.isEmpty then
    (⟨none, some ("Input directory is empty or has files with invalid format")⟩, none)
  else
    match buildInvertedIndex files with
    | some idx =>
      (⟨some (resolveOutput fs stem suffix), none⟩,
        some (resolveOutput fs stem suffix, idx))
    | none => (⟨none, some ("exception")⟩, none)

/-- Decimal digits of `n`, most significant first; reference function for
`Nat.repr`. -/
def digitsRev (n : ℕ) : List Char :=
  if n < 10 then [Nat.digitChar n]
  else digitsRev (n / 10) ++ [Nat.digitChar (n % 10)]
decreasing_by exact Nat.div_lt_self (by omega) (by omega)

/-- Decimal value of a digit string, for the injectivity of `Nat.repr`. -/
def decodeVal (l : List Char) (a : ℕ) : ℕ :=
  l.foldl (fun a c => 10 * a + (c.toNat - 48)) a

/-! Concrete instances used by witnesses and counterexamples. -/

/-- Engine with one posting set `{2}` for lemma `a` and a one-document
table `{1: "p1"}`: document id 2 has a posting but no table entry. -/
def engineEx : SearchEngine := ⟨[("a", {2})], [], [(1, "p1")]⟩

/-- Engine whose lemma-token group maps lemma `l` (absent from the
inverted index) to the token set `{x}`: the cross-structure invariant is
violated. -/
def badEngine : SearchEngine := ⟨[], [("l", {"x"})], []⟩

/-- Example input: one lemma file for document 1, lemma column first. -/
def filesEx1 : List (ℕ × List (List String)) := [(1, [["a", "tok"], ["b"]])]

/-- Index built from `filesEx1`. -/
def idxEx1 : List (String × List ℕ) := [("a", [1]), ("b", [1])]

/-- Directory content for the output-collision witness. -/
def fsEx : List String := ["out.txt", "out_1.txt"]

/-! Lemmas and theorems -/

/-- Helper: code point of a character built from a valid scalar value. -/
lemma char_toNat_ofNat (n : ℕ) (h : n < 0xd800) : (Char.ofNat n).toNat = n := by
  simp [Char.ofNat, dif_pos (Or.inl h : n.isValidChar), Char.ofNatAux, Char.toNat,
    UInt32.toNat]

lemma upperChar_lowerChar (c : Char) : upperChar (lowerChar c) = upperChar c := by
  unfold lowerChar upperChar
  by_cases h1 : 65 ≤ c.toNat ∧ c.toNat ≤ 90
  · rw [if_pos h1]
    rw [char_toNat_ofNat _ (by omega)]
    rw [if_pos (by omega), if_neg (by omega), if_neg (by omega), if_neg (by omega)]
    have harith : c.toNat + 32 - 32 = c.toNat := by omega
    rw [harith, Char.ofNat_toNat]
  · rw [if_neg h1]
    by_cases h2 : 0x410 ≤ c.toNat ∧ c.toNat ≤ 0x42F
    · rw [if_pos h2, char_toNat_ofNat _ (by omega)]
      rw [if_neg (by omega), if_pos (by omega), if_neg (by omega), if_neg (by omega),
          if_neg (by omega)]
      have harith : c.toNat + 32 - 32 = c.toNat := by omega
      rw [harith, Char.ofNat_toNat]
    · rw [if_neg h2]
      by_cases h3 : c.toNat = 0x401
      · rw [if_pos h3, char_toNat_ofNat _ (by omega)]
        rw [if_neg (by omega), if_neg (by omega), if_pos rfl, if_neg (by omega),
            if_neg (by omega), if_neg (by omega)]
        rw [← h3, Char.ofNat_toNat]
      · rw [if_neg h3]

lemma upperChar_upperChar (c : Char) : upperChar (upperChar c) = upperChar c := by
  unfold upperChar
  by_cases h1 : 97 ≤ c.toNat ∧ c.toNat ≤ 122
  · rw [if_pos h1, char_toNat_ofNat _ (by omega)]
    rw [if_neg (by omega), if_neg (by omega), if_neg (by omega)]
  · rw [if_neg h1]
    by_cases h2 : 0x430 ≤ c.toNat ∧ c.toNat ≤ 0x44F
    · rw [if_pos h2, char_toNat_ofNat _ (by omega)]
      rw [if_neg (by omega), if_neg (by omega), if_neg (by omega)]
    · rw [if_neg h2]
      by_cases h3 : c.toNat = 0x451
      · rw [if_pos h3, char_toNat_ofNat _ (by omega)]
        rw [if_neg (by omega), if_neg (by omega), if_neg (by omega)]
      · rw [if_neg h3, if_neg h1, if_neg h2, if_neg h3]

lemma data_asString (l : List Char) : (List.asString l).data = l := rfl

lemma upperStr_lowerStr (s : String) : upperStr (lowerStr s) = upperStr s := by
  unfold upperStr lowerStr
  rw [data_asString, List.map_map]
  have hmap : upperChar ∘ lowerChar = upperChar := funext upperChar_lowerChar
  rw [hmap]

lemma upperStr_upperStr (s : String) : upperStr (upperStr s) = upperStr s := by
  unfold upperStr
  rw [data_asString, List.map_map]
  have hmap : upperChar ∘ upperChar = upperChar := funext upperChar_upperChar
  rw [hmap]

/-! Characterization of the builder. -/

lemma occIn_cons_self (v : String) (ws : List String) (d : ℕ) :
    occIn v (v :: ws) d = d :: occIn v ws d := by
  simp [occIn, List.filter_cons]

lemma occIn_cons_ne (v w : String) (ws : List String) (d : ℕ) (h : ¬ v = w) :
    occIn v (w :: ws) d = occIn v ws d := by
  have hw : ¬ (w = v) := fun hh => h hh.symm
  simp [occIn, List.filter_cons, hw]

lemma lookupIdx_addLemma (idx : List (String × List ℕ)) (w v : String) (d : ℕ) :
    lookupIdx (addLemma idx w d) v =
      if v = w then some ((lookupIdx idx v).getD [] ++ [d]) else lookupIdx idx v := by
  induction idx with
  | nil =>
    by_cases h : v = w
    · simp [addLemma, lookupIdx, h]
    · have hw : ¬ (w = v) := fun hh => h hh.symm
      simp [addLemma, lookupIdx, h, hw]
  | cons p rest ih =>
    by_cases hp : p.1 = w
    · by_cases hv : v = w
      · simp [addLemma, lookupIdx, hp, hv]
      · have h1 : ¬ (p.1 = v) := by
          rw [hp]
          exact fun hh => hv hh.symm
        have hw : ¬ (w = v) := fun hh => hv hh.symm
        simp [addLemma, lookupIdx, hp, hv, h1, hw]
    · by_cases hpv : p.1 = v
      · have hv : ¬ (v = w) := by
          rw [← hpv]
          exact fun hh => hp hh
        simp [addLemma, lookupIdx, hp, hpv, hv]
      · simp [addLemma, lookupIdx, hp, hpv, ih]

lemma lookupIdx_addFile (idx : List (String × List ℕ)) (d : ℕ) (ws : List String)
    (v : String) :
    lookupIdx (addFile idx d ws) v =
      if occIn v ws d = [] then lookupIdx idx v
      else some ((lookupIdx idx v).getD [] ++ occIn v ws d) := by
  induction ws generalizing idx with
  | nil => simp [addFile, occIn]
  | cons w ws ih =>
    have hstep : addFile idx d (w :: ws) = addFile (addLemma idx w d) d ws := by
      simp [addFile]
    rw [hstep, ih]
    by_cases hv : v = w
    · subst hv
      rw [occIn_cons_self]
      by_cases hrest : occIn v ws d = []
      · simp [hrest, lookupIdx_addLemma]
      · simp only [hrest, if_neg hrest]
        rw [lookupIdx_addLemma]
        simp
    · rw [occIn_cons_ne v w ws d hv, lookupIdx_addLemma, if_neg hv]

lemma lookupIdx_foldl (files : List (ℕ × List String))
    (idx : List (String × List ℕ)) (v : String) :
    lookupIdx (files.foldl (fun i p => addFile i p.1 p.2) idx) v =
      if occAll v files = [] then lookupIdx idx v
      else some ((lookupIdx idx v).getD [] ++ occAll v files) := by
  induction files generalizing idx with
  | nil => simp [occAll]
  | cons p files ih =>
    have hocc : occAll v (p :: files) = occIn v p.2 p.1 ++ occAll v files := by
      simp [occAll]
    rw [List.foldl_cons, ih, hocc, lookupIdx_addFile]
    by_cases h1 : occIn v p.2 p.1 = []
    · simp [h1]
    · by_cases h2 : occAll v files = []
      · simp [h1, h2]
      · have hne : ¬ (occIn v p.2 p.1 ++ occAll v files = []) := by
          simp [h1]
        simp only [if_neg h1, if_neg h2, if_neg hne]
        simp [List.append_assoc]

/-- Central characterization: in a successfully built index, the posting
list of lemma `v` is exactly the concatenation, in file-encounter order, of
one copy of each document id per line whose first column is `v`. -/
lemma lookupIdx_buildCore (files : List (ℕ × List String)) (v : String) :
    lookupIdx (buildCore files) v =
      if occAll v files = [] then none else some (occAll v files) := by
  have := lookupIdx_foldl files [] v
  simpa [buildCore, lookupIdx] using this

/-- Successful extraction relates raw files to their lemma column lists. -/
lemma extractFiles_forall₂ (files : List (ℕ × List (List String)))
    (fl : List (ℕ × List String)) (h : extractFiles files = some fl) :
    List.Forall₂ (fun (p : ℕ × List (List String)) (q : ℕ × List String) =>
      p.1 = q.1 ∧ getLemmasFromLemmaFile p.2 = some q.2) files fl := by
  induction files generalizing fl with
  | nil =>
    simp only [extractFiles, Option.some.injEq] at h
    subst h
    exact List.Forall₂.nil
  | cons p files ih =>
    rw [extractFiles] at h
    cases hq : getLemmasFromLemmaFile p.2 with
    | none => rw [hq] at h; simp at h
    | some ls =>
      cases hrest : extractFiles files with
      | none => rw [hq, hrest] at h; simp at h
      | some fl' =>
        rw [hq, hrest] at h
        simp only [Option.some.injEq] at h
        subst h
        exact List.Forall₂.cons ⟨rfl, hq⟩ (ih fl' hrest)

lemma mem_getLemmas_iff (file : List (List String)) (ls : List String)
    (h : getLemmasFromLemmaFile file = some ls) (v : String) :
    v ∈ ls ↔ ∃ line ∈ file, line.head? = some v := by
  induction file generalizing ls with
  | nil =>
    simp only [getLemmasFromLemmaFile, Option.some.injEq] at h
    subst h
    simp
  | cons line file ih =>
    rw [getLemmasFromLemmaFile] at h
    cases hh : line.head? with
    | none => rw [hh] at h; simp at h
    | some w =>
      cases hrest : getLemmasFromLemmaFile file with
      | none => rw [hh, hrest] at h; simp at h
      | some ws =>
        rw [hh, hrest] at h
        simp only [Option.some.injEq] at h
        subst h
        have hiff := ih ws hrest
        simp only [List.mem_cons]
        constructor
        · rintro (rfl | hv)
          · exact ⟨line, Or.inl rfl, hh⟩
          · obtain ⟨l, hl, hl2⟩ := hiff.mp hv
            exact ⟨l, Or.inr hl, hl2⟩
        · rintro ⟨l, (rfl | hl), hl2⟩
          · left
            rw [hh] at hl2
            exact (Option.some.inj hl2).symm
          · right
            exact hiff.mpr ⟨l, hl, hl2⟩

lemma mem_occAll_iff (fl : List (ℕ × List String)) (v : String) (d : ℕ) :
    d ∈ occAll v fl ↔ ∃ q ∈ fl, q.1 = d ∧ v ∈ q.2 := by
  constructor
  · intro h
    simp only [occAll, List.mem_flatMap] at h
    obtain ⟨q, hq, hd⟩ := h
    simp only [occIn, List.mem_map, List.mem_filter] at hd
    obtain ⟨x, ⟨hx, hxv⟩, rfl⟩ := hd
    refine ⟨q, hq, rfl, ?_⟩
    have hxv' : x = v := by simpa using hxv
    rw [← hxv']
    exact hx
  · rintro ⟨q, hq, rfl, hv⟩
    simp only [occAll, List.mem_flatMap]
    refine ⟨q, hq, ?_⟩
    simp only [occIn, List.mem_map, List.mem_filter]
    exact ⟨v, ⟨hv, by simp⟩, trivial⟩

lemma forall₂_mem_right {α β : Type} {R : α → β → Prop}
    {l₁ : List α} {l₂ : List β}
    (hrel : List.Forall₂ R l₁ l₂) {q : β} (hq : q ∈ l₂) :
    ∃ p ∈ l₁, R p q := by
  induction hrel with
  | nil => simp at hq
  | cons hpq hrest ih =>
    rcases List.mem_cons.mp hq with rfl | hq
    · exact ⟨_, List.mem_cons_self _ _, hpq⟩
    · obtain ⟨p, hp, hcond⟩ := ih hq
      exact ⟨p, List.mem_cons_of_mem _ hp, hcond⟩

lemma forall₂_mem_left {α β : Type} {R : α → β → Prop}
    {l₁ : List α} {l₂ : List β}
    (hrel : List.Forall₂ R l₁ l₂) {p : α} (hp : p ∈ l₁) :
    ∃ q ∈ l₂, R p q := by
  induction hrel with
  | nil => simp at hp
  | cons hpq hrest ih =>
    rcases List.mem_cons.mp hp with rfl | hp
    · exact ⟨_, List.mem_cons_self _ _, hpq⟩
    · obtain ⟨q, hq, hcond⟩ := ih hp
      exact ⟨q, List.mem_cons_of_mem _ hq, hcond⟩

/-- C1 — soundness and completeness of the built inverted index: a document
id `d` is in the posting list of lemma `v` iff some input file keyed `d`
has a line whose first column is `v`. -/
theorem index_build_sound_complete (files : List (ℕ × List (List String)))
    (idx : List (String × List ℕ)) (hok : buildInvertedIndex files = some idx)
    (v : String) (d : ℕ) :
    (∃ ps, lookupIdx idx v = some ps ∧ d ∈ ps) ↔
      ∃ f, (d, f) ∈ files ∧ ∃ line ∈ f, line.head? = some v := by
  rw [buildInvertedIndex] at hok
  cases hfl : extractFiles files with
  | none => rw [hfl] at hok; simp at hok
  | some fl =>
    rw [hfl] at hok
    have hok' : buildCore fl = idx := by simpa using hok
    subst hok'
    have hrel := extractFiles_forall₂ files fl hfl
    rw [lookupIdx_buildCore]
    constructor
    · intro h
      by_cases hempty : occAll v fl = []
      · simp [hempty] at h
      · simp only [if_neg hempty, Option.some.injEq] at h
        obtain ⟨ps, hps, hd⟩ := h
        rw [← hps] at hd
        obtain ⟨q, hq, hqd, hqv⟩ := (mem_occAll_iff fl v d).mp hd
        obtain ⟨p, hp, hkey, hextract⟩ := forall₂_mem_right hrel hq
        have hpd : p.1 = d := hkey.trans hqd
        refine ⟨p.2, ?_, (mem_getLemmas_iff p.2 q.2 hextract v).mp hqv⟩
        rw [← hpd]
        simpa using hp
    · rintro ⟨f, hf, hline⟩
      obtain ⟨q, hq, hkey, hextract⟩ := forall₂_mem_left hrel hf
      have hqv : v ∈ q.2 := (mem_getLemmas_iff f q.2 hextract v).mpr hline
      have hd : d ∈ occAll v fl :=
        (mem_occAll_iff fl v d).mpr ⟨q, hq, hkey.symm, hqv⟩
      have hempty : ¬ (occAll v fl = []) := by
        intro hcon
        rw [hcon] at hd
        simp at hd
      rw [if_neg hempty]
      exact ⟨occAll v fl, rfl, hd⟩

/-- Witness for C1 at a concrete input. -/
theorem index_build_sound_complete_witness :
    buildInvertedIndex filesEx1 = some idxEx1 ∧
      ((∃ ps, lookupIdx idxEx1 ("a") = some ps ∧ 1 ∈ ps) ↔
        ∃ f, (1, f) ∈ filesEx1 ∧ ∃ line ∈ f, line.head? = some ("a")) :=
  ⟨by decide, index_build_sound_complete filesEx1 idxEx1 (by decide) ("a") 1⟩

/-- C3 counterexample — when the builder encounters the lemma file of
document 2 before that of document 1 (a possible `os.listdir` order), the
posting list of lemma `a` is `[2, 1]`, which is not ascending: the builder
never sorts. -/
theorem index_order_counterexample :
    buildInvertedIndex [(2, [["a"]]), (1, [["a"]])] = some [("a", [2, 1])] ∧
      ¬ List.Sorted (· ≤ ·) [2, 1] := by
  constructor
  · decide
  · decide

lemma forall₂_map_fst {files : List (ℕ × List (List String))}
    {fl : List (ℕ × List String)}
    (hrel : List.Forall₂ (fun (p : ℕ × List (List String)) (q : ℕ × List String) =>
      p.1 = q.1 ∧ getLemmasFromLemmaFile p.2 = some q.2) files fl) :
    files.map Prod.fst = fl.map Prod.fst := by
  induction hrel with
  | nil => rfl
  | cons hpq hrest ih => simp [hpq.1, ih]

lemma mem_occIn {x : ℕ} {v : String} {ws : List String} {d : ℕ}
    (h : x ∈ occIn v ws d) : x = d := by
  simp only [occIn, List.mem_map] at h
  obtain ⟨_, _, rfl⟩ := h
  rfl

lemma sorted_occIn (v : String) (ws : List String) (d : ℕ) :
    List.Sorted (· ≤ ·) (occIn v ws d) := by
  rw [occIn, List.map_const']
  rw [List.Sorted, List.pairwise_replicate]
  right
  exact le_refl d

lemma sorted_occAll (v : String) :
    ∀ fl : List (ℕ × List String),
      List.Sorted (· ≤ ·) (fl.map Prod.fst) → List.Sorted (· ≤ ·) (occAll v fl)
  | [], _ => by simp [occAll]
  | q :: fl, hs => by
    have hparts := List.sorted_cons.mp hs
    have hocc : occAll v (q :: fl) = occIn v q.2 q.1 ++ occAll v fl := by
      simp [occAll]
    rw [hocc, List.Sorted, List.pairwise_append]
    refine ⟨sorted_occIn v q.2 q.1, sorted_occAll v fl hparts.2, ?_⟩
    intro x hx y hy
    rw [mem_occIn hx]
    obtain ⟨q', hq', rfl, _⟩ := (mem_occAll_iff fl v y).mp hy
    exact hparts.1 q'.1 (List.mem_map.mpr ⟨q', hq', rfl⟩)

/-- C3 amended — posting lists are in file-encounter order, so they are
ascending exactly when the builder happens to encounter the per-document
lemma files in ascending id order (the code never sorts them). -/
theorem index_ascending_of_sorted_encounter (files : List (ℕ × List (List String)))
    (idx : List (String × List ℕ))
    (hs : List.Sorted (· ≤ ·) (files.map Prod.fst))
    (hok : buildInvertedIndex files = some idx)
    (v : String) (ps : List ℕ) (hv : lookupIdx idx v = some ps) :
    List.Sorted (· ≤ ·) ps := by
  rw [buildInvertedIndex] at hok
  cases hfl : extractFiles files with
  | none => rw [hfl] at hok; simp at hok
  | some fl =>
    rw [hfl] at hok
    have hok' : buildCore fl = idx := by simpa using hok
    subst hok'
    have hrel := extractFiles_forall₂ files fl hfl
    rw [lookupIdx_buildCore] at hv
    by_cases hempty : occAll v fl = []
    · rw [if_pos hempty] at hv
      simp at hv
    · rw [if_neg hempty] at hv
      rw [← Option.some.inj hv]
      exact sorted_occAll v fl (forall₂_map_fst hrel ▸ hs)

/-- Witness for the amended C3 at a concrete input. -/
theorem index_ascending_of_sorted_encounter_witness :
    List.Sorted (· ≤ ·) (filesEx1.map Prod.fst) ∧
      buildInvertedIndex filesEx1 = some idxEx1 ∧
      lookupIdx idxEx1 ("a") = some [1] ∧ List.Sorted (· ≤ ·) [1] :=
  ⟨by decide, by decide, by decide,
    index_ascending_of_sorted_encounter filesEx1 idxEx1 (by decide) (by decide)
      ("a") [1] (by decide)⟩

/-- C4 counterexample — a document whose lemma file mentions lemma `a` on
two lines contributes its id twice: the builder appends once per line, so
the posting list `[1, 1]` repeats the id. -/
theorem index_duplicate_counterexample :
    buildInvertedIndex [(1, [["a"], ["a"]])] = some [("a", [1, 1])] ∧
      List.count 1 [1, 1] ≠ 1 := by
  constructor
  · decide
  · decide

lemma count_occIn (v : String) (ws : List String) (d d' : ℕ) :
    (occIn v ws d).count d' =
      if d = d' then (ws.filter (fun x => x = v)).length else 0 := by
  rw [occIn, List.map_const', List.count_replicate]
  by_cases h : d = d'
  · simp [h]
  · have hne : ¬ ((d == d') = true) := by simpa using h
    simp [h, hne]

lemma filter_length_transfer (file : List (List String)) (ws : List String)
    (h : getLemmasFromLemmaFile file = some ws) (v : String) :
    (ws.filter (fun x => x = v)).length =
      (file.filter (fun line => line.head? = some v)).length := by
  induction file generalizing ws with
  | nil =>
    simp only [getLemmasFromLemmaFile, Option.some.injEq] at h
    subst h
    simp
  | cons line file ih =>
    rw [getLemmasFromLemmaFile] at h
    cases hh : line.head? with
    | none => rw [hh] at h; simp at h
    | some w =>
      cases hrest : getLemmasFromLemmaFile file with
      | none => rw [hh, hrest] at h; simp at h
      | some ws' =>
        rw [hh, hrest] at h
        simp only [Option.some.injEq] at h
        subst h
        by_cases hw : w = v
        · subst hw
          simp [List.filter_cons, hh, ih ws' hrest]
        · have hh2 : ¬ (line.head? = some v) := by
            rw [hh]
            simpa using hw
          simp [List.filter_cons, hw, hh2, ih ws' hrest]

lemma count_occAll (v : String) :
    ∀ (fl : List (ℕ × List String)) (d : ℕ),
      (occAll v fl).count d =
        (fl.map (fun q =>
          if q.1 = d then (q.2.filter (fun x => x = v)).length else 0)).sum
  | [], d => by simp [occAll]
  | q :: fl, d => by
    have hocc : occAll v (q :: fl) = occIn v q.2 q.1 ++ occAll v fl := by
      simp [occAll]
    rw [hocc, List.count_append, count_occIn, count_occAll v fl d]
    simp

/-- C4 amended — multiplicity law: the posting list of lemma `v` contains a
document id `d` once per line of `d`'s lemma file whose first column is
`v`; a lemma repeated on several lines of one file yields a repeated id. -/
theorem index_posting_multiplicity (files : List (ℕ × List (List String)))
    (idx : List (String × List ℕ)) (hok : buildInvertedIndex files = some idx)
    (v : String) (ps : List ℕ) (hv : lookupIdx idx v = some ps) (d : ℕ) :
    ps.count d =
      (files.map (fun p =>
        if p.1 = d then (p.2.filter (fun line => line.head? = some v)).length
        else 0)).sum := by
  rw [buildInvertedIndex] at hok
  cases hfl : extractFiles files with
  | none => rw [hfl] at hok; simp at hok
  | some fl =>
    rw [hfl] at hok
    have hok' : buildCore fl = idx := by simpa using hok
    subst hok'
    have hrel := extractFiles_forall₂ files fl hfl
    rw [lookupIdx_buildCore] at hv
    by_cases hempty : occAll v fl = []
    · rw [if_pos hempty] at hv
      simp at hv
    · rw [if_neg hempty] at hv
      rw [← Option.some.inj hv, count_occAll]
      clear hv hempty hfl hok
      induction hrel with
      | nil => rfl
      | cons hpq hrest ih =>
        simp only [List.map_cons, List.sum_cons]
        rcases hpq with ⟨hkey, hextract⟩
        rw [ih, hkey, filter_length_transfer _ _ hextract v]

/-- Witness for the amended C4 at a concrete input. -/
theorem index_posting_multiplicity_witness :
    buildInvertedIndex filesEx1 = some idxEx1 ∧
      lookupIdx idxEx1 ("a") = some [1] ∧
      List.count 1 [1] =
        (filesEx1.map (fun p =>
          if p.1 = 1 then
            (p.2.filter (fun line => line.head? = some ("a"))).length
          else 0)).sum :=
  ⟨by decide, by decide,
    index_posting_multiplicity filesEx1 idxEx1 (by decide) ("a") [1] (by decide) 1⟩

/-! Evaluation helpers. -/

lemma evalFold_append (e : SearchEngine) (ts us : List String)
    (stack : List (Option (Finset ℕ))) :
    evalFold e (ts ++ us) stack =
      (evalFold e ts stack).bind (fun st => evalFold e us st) := by
  rw [evalFold, List.foldlM_append]
  rfl

lemma finishRun_ok_inv (st : List (Option (Finset ℕ))) (S : Finset ℕ)
    (h : finishRun st = .ok S) : st = [some S] := by
  match st with
  | [] => simp [finishRun] at h
  | [some s] =>
    simp only [finishRun, Except.ok.injEq] at h
    rw [h]
  | [none] => simp [finishRun] at h
  | a :: b :: rest => simp [finishRun] at h

lemma runProgram_ok_inv (e : SearchEngine) (ts : List String) (S : Finset ℕ)
    (h : runProgram e ts = .ok S) : evalFold e ts [] = .ok [some S] := by
  rw [runProgram] at h
  cases hev : evalFold e ts [] with
  | error err =>
    rw [hev] at h
    exact absurd h (by simp)
  | ok st =>
    rw [hev] at h
    rw [finishRun_ok_inv st S h]

/-- C2 counterexample — on `engineEx`, whose index holds a posting for
document 2 while the document table only knows document 1, the query
`NOT b` (with `b` resolving to the empty set) returns `{1}`: the code
complements against the table keys only, while the claimed
DocumentUniverse `{1, 2}` would give `{1, 2}`. -/
theorem not_universe_counterexample :
    processQuerySet engineEx ("NOT b") = .ok {1} ∧
      specUniverse engineEx \ (∅ : Finset ℕ) = {1, 2} ∧
      ({1} : Finset ℕ) ≠ {1, 2} := by
  refine ⟨by decide, by decide, by decide⟩

/-- C2 amended — the `NOT` instruction complements against
`set(self.htmls.keys())` (the document-table keys, `allDocs`), not against
the spec's DocumentUniverse: appending `NOT` to a successfully evaluated
program yields exactly `allDocs e \ S`. -/
theorem not_complements_table_keys (e : SearchEngine) (ts : List String)
    (S : Finset ℕ) (h : runProgram e ts = .ok S) :
    runProgram e (ts ++ ["NOT"]) = .ok (allDocs e \ S) := by
  have hev := runProgram_ok_inv e ts S h
  rw [runProgram, evalFold_append, hev]
  rfl

/-- Witness for the amended C2 at a concrete input. -/
theorem not_complements_table_keys_witness :
    runProgram engineEx ["a"] = .ok {2} ∧
      runProgram engineEx (["a"] ++ ["NOT"]) = .ok (allDocs engineEx \ {2}) :=
  ⟨by decide, not_complements_table_keys engineEx ["a"] {2} (by decide)⟩

/-- C5 counterexample — on `engineEx` the query `a` evaluates to `{2}` but
`NOT ( NOT a )` evaluates to `∅`: double negation loses the ids that have
postings but no document-table entry, so it is not the identity. -/
theorem double_negation_counterexample :
    processQuerySet engineEx ("a") = .ok {2} ∧
      processQuerySet engineEx ("NOT ( NOT a )") = .ok ∅ ∧
      (Except.ok ({2} : Finset ℕ) : Except QueryError (Finset ℕ)) ≠ .ok ∅ := by
  refine ⟨by decide, by decide, by decide⟩

/-- C5 amended — applying `NOT` twice to a successfully evaluated program
returns the intersection of its set with the table-key universe
(`allDocs e ∩ S`); this equals `S` exactly when `S ⊆ allDocs e`. -/
theorem double_negation_within_universe (e : SearchEngine) (ts : List String)
    (S : Finset ℕ) (h : runProgram e ts = .ok S) :
    runProgram e (ts ++ ["NOT", "NOT"]) = .ok (allDocs e ∩ S) ∧
      (S ⊆ allDocs e → allDocs e ∩ S = S) := by
  constructor
  · have hev := runProgram_ok_inv e ts S h
    rw [runProgram, evalFold_append, hev]
    have hsd : allDocs e \ (allDocs e \ S) = allDocs e ∩ S := sdiff_sdiff_right_self
    show finishRun [some (allDocs e \ (allDocs e \ S))] = .ok (allDocs e ∩ S)
    rw [hsd]
    rfl
  · intro hsub
    exact Finset.inter_eq_right.mpr hsub

/-- Witness for the amended C5 at a concrete input. -/
theorem double_negation_within_universe_witness :
    runProgram engineEx ["a"] = .ok {2} ∧
      (runProgram engineEx (["a"] ++ ["NOT", "NOT"]) = .ok (allDocs engineEx ∩ {2}) ∧
        (({2} : Finset ℕ) ⊆ allDocs engineEx → allDocs engineEx ∩ {2} = {2})) :=
  ⟨by decide, double_negation_within_universe engineEx ["a"] {2} (by decide)⟩

/-! Step-behaviour lemmas for the evaluation loop. -/

lemma evalFold_cons (e : SearchEngine) (t : String) (ts : List String)
    (stack : List (Option (Finset ℕ))) :
    evalFold e (t :: ts) stack = (qstep e stack t).bind (fun st => evalFold e ts st) := by
  rw [evalFold, List.foldlM_cons]
  rfl

lemma qstep_bin_nil (e : SearchEngine) (t : String) (ht : t = "AND" ∨ t = "OR") :
    qstep e [] t = .error .malformed := by
  rcases ht with rfl | rfl <;> rfl

lemma qstep_bin_one (e : SearchEngine) (t : String) (o : Option (Finset ℕ))
    (ht : t = "AND" ∨ t = "OR") : qstep e [o] t = .error .malformed := by
  rcases ht with rfl | rfl <;> rfl

lemma qstep_bin_cons (e : SearchEngine) (t : String) (rs ls : Finset ℕ)
    (rest : List (Option (Finset ℕ))) (ht : t = "AND" ∨ t = "OR") :
    qstep e (some rs :: some ls :: rest) t =
      .ok (some (if t = "AND" then ls ∩ rs else ls ∪ rs) :: rest) := by
  rcases ht with rfl | rfl <;> rfl

lemma qstep_term (e : SearchEngine) (t : String)
    (stack : List (Option (Finset ℕ)))
    (h : ¬ (t = "AND" ∨ t = "OR" ∨ t = "NOT")) :
    qstep e stack t = .ok (getIndexesByToken e t ∅ :: stack) := by
  unfold qstep
  rw [if_neg h]

lemma programArity_not_zero (ts : List String) :
    programArity ("NOT" :: ts) 0 = none := by
  simp [programArity]

lemma programArity_not_pos (ts : List String) (n : ℕ) (h : ¬ n = 0) :
    programArity ("NOT" :: ts) n = programArity ts n := by
  simp [programArity, h]

lemma programArity_bin_small (t : String) (ts : List String) (n : ℕ)
    (ht : t = "AND" ∨ t = "OR") (h : n < 2) : programArity (t :: ts) n = none := by
  rcases ht with rfl | rfl <;> simp [programArity, h]

lemma programArity_bin (t : String) (ts : List String) (n : ℕ)
    (ht : t = "AND" ∨ t = "OR") (h : ¬ n < 2) :
    programArity (t :: ts) n = programArity ts (n - 1) := by
  rcases ht with rfl | rfl <;> simp [programArity, h]

lemma programArity_term (t : String) (ts : List String) (n : ℕ)
    (h : ¬ (t = "AND" ∨ t = "OR" ∨ t = "NOT")) :
    programArity (t :: ts) n = programArity ts (n + 1) := by
  have h1 : ¬ t = "NOT" := fun hh => h (Or.inr (Or.inr hh))
  have h2 : ¬ (t = "AND" ∨ t = "OR") := fun hh => h (hh.imp id Or.inl)
  rw [programArity]
  rw [if_neg h1, if_neg h2]

lemma finishRun_len_ne_one (st : List (Option (Finset ℕ))) (h : ¬ st.length = 1) :
    finishRun st = .error .malformed := by
  match st with
  | [] => rfl
  | [o] => exact absurd rfl h
  | a :: b :: rest => cases a <;> rfl

lemma runProgram_eq_finishRun (e : SearchEngine) (ts : List String)
    (st : List (Option (Finset ℕ))) (hev : evalFold e ts [] = .ok st) :
    runProgram e ts = finishRun st := by
  rw [runProgram, hev]

/-- Stack-size invariant of the evaluation loop: on a stack of genuine
sets, and with every term resolving to a genuine set, the loop succeeds
with the stack size predicted by `programArity`, and raises the
malformed-query error exactly when `programArity` underflows. -/
lemma evalFold_arity (e : SearchEngine) (ts : List String) :
    ∀ (stack : List (Option (Finset ℕ))),
      (∀ o ∈ stack, o.isSome) →
      (∀ t ∈ ts, ¬ (t = "AND" ∨ t = "OR" ∨ t = "NOT") →
        (getIndexesByToken e t ∅).isSome) →
      (match programArity ts stack.length with
       | some m => ∃ st, evalFold e ts stack = .ok st ∧ st.length = m ∧
           ∀ o ∈ st, o.isSome
       | none => evalFold e ts stack = .error .malformed) := by
  induction ts with
  | nil =>
    intro stack hst _
    exact ⟨stack, rfl, rfl, hst⟩
  | cons t ts ih =>
    intro stack hst hterm
    have hterm' : ∀ u ∈ ts, ¬ (u = "AND" ∨ u = "OR" ∨ u = "NOT") →
        (getIndexesByToken e u ∅).isSome :=
      fun u hu => hterm u (List.mem_cons_of_mem _ hu)
    rw [evalFold_cons]
    by_cases hnot : t = "NOT"
    · subst hnot
      cases stack with
      | nil =>
        have hlen : ([] : List (Option (Finset ℕ))).length = 0 := rfl
        rw [hlen, programArity_not_zero]
        rfl
      | cons o rest =>
        obtain ⟨s, rfl⟩ := Option.isSome_iff_exists.mp
          (hst o (List.mem_cons_self o rest))
        have hq : qstep e (some s :: rest) ("NOT") =
            .ok (some (allDocs e \ s) :: rest) := rfl
        rw [hq]
        have hlen : (some s :: rest).length = rest.length + 1 := rfl
        rw [hlen, programArity_not_pos ts (rest.length + 1) (Nat.succ_ne_zero _)]
        have hst' : ∀ o ∈ (some (allDocs e \ s) :: rest), o.isSome := by
          intro o ho
          rcases List.mem_cons.mp ho with rfl | ho
          · rfl
          · exact hst o (List.mem_cons_of_mem _ ho)
        exact ih (some (allDocs e \ s) :: rest) hst' hterm'
    · by_cases hbin : t = "AND" ∨ t = "OR"
      · cases stack with
        | nil =>
          have hlen : ([] : List (Option (Finset ℕ))).length = 0 := rfl
          rw [hlen, programArity_bin_small t ts 0 hbin (by omega), qstep_bin_nil e t hbin]
          rfl
        | cons r stack' =>
          cases stack' with
          | nil =>
            have hlen : [r].length = 1 := rfl
            rw [hlen, programArity_bin_small t ts 1 hbin (by omega),
              qstep_bin_one e t r hbin]
            rfl
          | cons l rest =>
            obtain ⟨rs, rfl⟩ := Option.isSome_iff_exists.mp
              (hst r (List.mem_cons_self r _))
            obtain ⟨ls, rfl⟩ := Option.isSome_iff_exists.mp
              (hst l (List.mem_cons_of_mem _ (List.mem_cons_self l rest)))
            rw [qstep_bin_cons e t rs ls rest hbin]
            have hlen : (some rs :: some ls :: rest).length = rest.length + 2 := rfl
            rw [hlen, programArity_bin t ts (rest.length + 2) hbin (by omega)]
            have harith : rest.length + 2 - 1 = rest.length + 1 := by omega
            rw [harith]
            have hst' : ∀ o ∈ (some (if t = "AND" then ls ∩ rs else ls ∪ rs) :: rest),
                o.isSome := by
              intro o ho
              rcases List.mem_cons.mp ho with rfl | ho
              · rfl
              · exact hst o (List.mem_cons_of_mem _ (List.mem_cons_of_mem _ ho))
            exact ih (some (if t = "AND" then ls ∩ rs else ls ∪ rs) :: rest) hst' hterm'
      · have hall : ¬ (t = "AND" ∨ t = "OR" ∨ t = "NOT") := by
          intro hh
          rcases hh with hh | hh | hh
          · exact hbin (Or.inl hh)
          · exact hbin (Or.inr hh)
          · exact hnot hh
        rw [qstep_term e t stack hall, programArity_term t ts stack.length hall]
        obtain ⟨s, hs⟩ := Option.isSome_iff_exists.mp
          (hterm t (List.mem_cons_self t ts) hall)
        rw [hs]
        have hst' : ∀ o ∈ (some s :: stack), o.isSome := by
          intro o ho
          rcases List.mem_cons.mp ho with rfl | ho
          · rfl
          · exact hst o ho
        exact ih (some s :: stack) hst' hterm'

/-- C6 — when every term of the program resolves to a genuine set (the
situation guaranteed by the load invariants), the evaluation loop raises
the malformed-query `ValueError` exactly on structural mismatch: operand
underflow at a `NOT`/`AND`/`OR` instruction or a final stack size other
than one; moreover the query `AND слово` raises it on every engine. -/
theorem malformed_iff_structural (e : SearchEngine) (ts : List String)
    (hterm : ∀ t ∈ ts, ¬ (t = "AND" ∨ t = "OR" ∨ t = "NOT") →
      (getIndexesByToken e t ∅).isSome) :
    (runProgram e ts = .error .malformed ↔ ¬ structuralOk ts) ∧
      processQuerySet e ("AND слово") = .error .malformed := by
  constructor
  · have har := evalFold_arity e ts [] (by simp) hterm
    rw [structuralOk]
    have hlen : ([] : List (Option (Finset ℕ))).length = 0 := rfl
    rw [hlen] at har
    cases hcase : programArity ts 0 with
    | none =>
      simp only [hcase] at har
      rw [runProgram, har]
      simp
    | some m =>
      simp only [hcase] at har
      obtain ⟨st, hev, hlen2, hsome⟩ := har
      rw [runProgram_eq_finishRun e ts st hev]
      by_cases hm : m = 1
      · subst hm
        obtain ⟨o, rfl⟩ := List.length_eq_one.mp hlen2
        obtain ⟨s, rfl⟩ := Option.isSome_iff_exists.mp
          (hsome o (List.mem_cons_self o []))
        constructor
        · intro hcon
          exact absurd hcon (by simp [finishRun])
        · intro hcon
          exact absurd rfl hcon
      · rw [finishRun_len_ne_one st (by rw [hlen2]; exact hm)]
        constructor
        · intro _
          intro hcon
          exact hm (Option.some.inj hcon)
        · intro _
          rfl
  · have hpost : toPostfixQueue (tokenizeQuery ("AND слово")) = ["слово", "AND"] := by
      decide
    rw [processQuerySet, hpost]
    rfl

/-- Witness for C6 at a concrete engine and program. -/
theorem malformed_iff_structural_witness :
    (∀ t ∈ ["a", "b", "AND"], ¬ (t = "AND" ∨ t = "OR" ∨ t = "NOT") →
      (getIndexesByToken engineEx t ∅).isSome) ∧
      ((runProgram engineEx ["a", "b", "AND"] = .error .malformed ↔
          ¬ structuralOk ["a", "b", "AND"]) ∧
        processQuerySet engineEx ("AND слово") = .error .malformed) :=
  ⟨by decide, malformed_iff_structural engineEx ["a", "b", "AND"] (by decide)⟩

/-- C7 counterexample — on `engineEx`, the query `a` returns the
one-element list `[None]`: the posting id 2 has no document-table entry,
and `htmls.get(2)` puts a `None` entry in the result instead of dropping
the id. -/
theorem missing_id_entry_counterexample :
    processQuery engineEx ("a") = .ok [none] ∧
      (Except.ok ([none] : List (Option String)) :
        Except QueryError (List (Option String))) ≠ .ok [] := by
  constructor
  · have h : processQuerySet engineEx ("a") = .ok {2} := by decide
    rw [processQuery, h]
    simp [pySorted, lookupD]
  · decide

lemma lookupD_eq_none_iff {β : Type} (l : List (ℕ × β)) (k : ℕ) :
    lookupD l k = none ↔ k ∉ l.map Prod.fst := by
  induction l with
  | nil => simp [lookupD]
  | cons p rest ih =>
    by_cases h : p.1 = k
    · simp [lookupD, h]
    · have h2 : ¬ (k = p.1) := fun hh => h hh.symm
      simp [lookupD, h, h2, ih]

/-- C7 amended — a successful query returns the surviving set's ids in
ascending order, each mapped through the document table with `dict.get`;
an id with no table entry contributes a `None` entry to the list (it is
not dropped, and no error is raised at this point). -/
theorem result_ascending_mapped (e : SearchEngine) (q : String) (S : Finset ℕ)
    (h : processQuerySet e q = .ok S) :
    processQuery e q = .ok ((pySorted S).map (lookupD e.htmls)) ∧
      List.Sorted (· ≤ ·) (pySorted S) ∧
      (∀ d ∈ pySorted S, d ∉ allDocs e → lookupD e.htmls d = none) := by
  refine ⟨?_, ?_, ?_⟩
  · rw [processQuery, h]
  · exact Finset.sort_sorted _ _
  · intro d _ hd
    rw [lookupD_eq_none_iff]
    intro hmem
    exact hd (List.mem_toFinset.mpr hmem)

/-- Witness for the amended C7 at a concrete input. -/
theorem result_ascending_mapped_witness :
    processQuerySet engineEx ("a") = .ok {2} ∧
      (processQuery engineEx ("a") = .ok ((pySorted {2}).map (lookupD engineEx.htmls)) ∧
        List.Sorted (· ≤ ·) (pySorted {2}) ∧
        (∀ d ∈ pySorted {2}, d ∉ allDocs engineEx → lookupD engineEx.htmls d = none)) :=
  ⟨by decide, result_ascending_mapped engineEx ("a") {2} (by decide)⟩

/-- C9 — term resolution is total under the cross-structure invariant that
every lemma key of the loaded lemma-token group is an inverted-index key;
without it, `_get_indexes_by_token` can return `None` (`badEngine`, token
`x`), and the unguarded set operation in `process_query` then raises the
`TypeError` rather than a malformed-query error. -/
theorem term_resolution_total_iff_invariant (e : SearchEngine)
    (hinv : ∀ p ∈ e.lemmas, (lookupD e.invertedIndex p.1).isSome)
    (t : String) (d : Finset ℕ) :
    (getIndexesByToken e t d).isSome ∧
      getIndexesByToken badEngine ("x") ∅ = none ∧
      processQuerySet badEngine ("x AND x") = .error .typeErr := by
  refine ⟨?_, by decide, by decide⟩
  unfold getIndexesByToken
  by_cases h1 : (lookupD e.invertedIndex t).isSome
  · rw [if_pos h1]
    exact h1
  · rw [if_neg h1]
    cases hf : e.lemmas.find? (fun p => decide (t ∈ p.2)) with
    | none => rfl
    | some p => exact hinv p (List.mem_of_find?_eq_some hf)

/-- Witness for C9 at a concrete engine satisfying the invariant. -/
theorem term_resolution_total_iff_invariant_witness :
    (∀ p ∈ engineEx.lemmas, (lookupD engineEx.invertedIndex p.1).isSome) ∧
      ((getIndexesByToken engineEx ("b") ∅).isSome ∧
        getIndexesByToken badEngine ("x") ∅ = none ∧
        processQuerySet badEngine ("x AND x") = .error .typeErr) :=
  ⟨by decide, term_resolution_total_iff_invariant engineEx (by decide) ("b") ∅⟩

/-- C10 — keyword shadowing: any token of a tokenized query that equals
`and`, `or` or `not` case-insensitively is the corresponding upper-case
operator token, and the evaluation loop treats it as an operator (observing
it on the empty stack raises the malformed-query error, whereas a term
would push a set); such a word can therefore never reach
`_get_indexes_by_token`. -/
theorem keyword_shadowing (q t : String) (e : SearchEngine)
    (ht : t ∈ tokenizeQuery q)
    (hup : upperStr t = "AND" ∨ upperStr t = "OR" ∨ upperStr t = "NOT") :
    (t = "AND" ∨ t = "OR" ∨ t = "NOT") ∧ qstep e [] t = .error .malformed := by
  have hop : t = "AND" ∨ t = "OR" ∨ t = "NOT" := by
    rw [tokenizeQuery] at ht
    obtain ⟨r, hr, rfl⟩ := List.mem_map.mp ht
    unfold tokenMap at hup ⊢
    by_cases hkw : upperStr r ∈ kwList
    · rw [if_pos hkw] at hup ⊢
      rw [upperStr_upperStr] at hup
      exact hup
    · rw [if_neg hkw] at hup ⊢
      rw [upperStr_lowerStr] at hup
      exfalso
      apply hkw
      rcases hup with h | h | h <;> rw [h] <;> decide
  refine ⟨hop, ?_⟩
  rcases hop with rfl | rfl | rfl <;> rfl

/-- Witness for C10 at a concrete query. -/
theorem keyword_shadowing_witness :
    ("AND" ∈ tokenizeQuery ("And x")) ∧
      (upperStr ("AND") = "AND" ∨ upperStr ("AND") = "OR" ∨
        upperStr ("AND") = "NOT") ∧
      (("AND" = "AND" ∨ "AND" = "OR" ∨ "AND" = "NOT") ∧
        qstep engineEx [] ("AND") = .error .malformed) :=
  ⟨by decide, by decide,
    keyword_shadowing ("And x") ("AND") engineEx (by decide) (by decide)⟩

/-! Decimal representation: `Nat.repr` is injective, so candidate output
names with distinct counters are distinct. -/

lemma digitChar_toNat (n : ℕ) (h : n < 10) : (Nat.digitChar n).toNat = 48 + n := by
  interval_cases n <;> decide

lemma toDigitsCore_eq : ∀ (fuel n : ℕ) (ds : List Char), n < fuel →
    Nat.toDigitsCore 10 fuel n ds = digitsRev n ++ ds := by
  intro fuel
  induction fuel with
  | zero =>
    intro n ds h
    omega
  | succ fuel ih =>
    intro n ds h
    simp only [Nat.toDigitsCore]
    by_cases h10 : n / 10 = 0
    · rw [if_pos h10]
      have hlt : n < 10 := by
        by_contra hh
        push_neg at hh
        have h1 : 1 ≤ n / 10 := Nat.one_le_div_iff (by omega) |>.mpr hh
        omega
      rw [digitsRev, if_pos hlt, Nat.mod_eq_of_lt hlt]
      rfl
    · rw [if_neg h10]
      have hge : 10 ≤ n := by
        by_contra hh
        push_neg at hh
        exact h10 (Nat.div_eq_of_lt hh)
      have hdiv : n / 10 < fuel := by
        have h1 : n / 10 < n := Nat.div_lt_self (by omega) (by omega)
        omega
      rw [ih (n / 10) (Nat.digitChar (n % 10) :: ds) hdiv]
      rw [show digitsRev n = digitsRev (n / 10) ++ [Nat.digitChar (n % 10)] from by
        rw [digitsRev, if_neg (by omega : ¬ n < 10)]]
      rw [List.append_assoc]
      rfl

lemma decodeVal_digitsRev (n : ℕ) : ∀ a : ℕ,
    decodeVal (digitsRev n) a = a * 10 ^ (digitsRev n).length + n := by
  induction n using Nat.strong_induction_on with
  | _ n ih =>
    intro a
    by_cases hlt : n < 10
    · rw [digitsRev, if_pos hlt]
      show 10 * a + ((Nat.digitChar n).toNat - 48) = a * 10 ^ ([Nat.digitChar n].length) + n
      rw [digitChar_toNat n hlt]
      simp
      omega
    · rw [digitsRev, if_neg hlt]
      have hrec : n / 10 < n := Nat.div_lt_self (by omega) (by omega)
      rw [decodeVal, List.foldl_append]
      have hstep := ih (n / 10) hrec a
      rw [decodeVal] at hstep
      rw [hstep]
      have hmod : n % 10 < 10 := Nat.mod_lt n (by omega)
      simp only [List.foldl_cons, List.foldl_nil, List.length_append,
        List.length_cons, List.length_nil]
      rw [digitChar_toNat (n % 10) hmod]
      have h48 : 48 + n % 10 - 48 = n % 10 := by omega
      rw [h48]
      have hdm : 10 * (n / 10) + n % 10 = n := by
        have := Nat.div_add_mod n 10
        omega
      have hpow : (10 : ℕ) ^ ((digitsRev (n / 10)).length + (0 + 1)) =
          10 ^ (digitsRev (n / 10)).length * 10 := by
        rw [Nat.zero_add]
        exact pow_succ 10 _
      rw [hpow]
      have hring : 10 * (a * 10 ^ (digitsRev (n / 10)).length + n / 10) + n % 10 =
          a * (10 ^ (digitsRev (n / 10)).length * 10) + (10 * (n / 10) + n % 10) := by
        ring
      rw [hring, hdm]

lemma digitsRev_inj (m n : ℕ) (h : digitsRev m = digitsRev n) : m = n := by
  have h1 := decodeVal_digitsRev m 0
  have h2 := decodeVal_digitsRev n 0
  rw [h] at h1
  rw [h1] at h2
  omega

lemma asString_data (s : String) : s.data.asString = s := rfl

lemma repr_eq_digitsRev (n : ℕ) : Nat.repr n = (digitsRev n).asString := by
  show (Nat.toDigits 10 n).asString = (digitsRev n).asString
  rw [Nat.toDigits, toDigitsCore_eq (n + 1) n [] (by omega), List.append_nil]

lemma repr_injective (m n : ℕ) (h : Nat.repr m = Nat.repr n) : m = n := by
  rw [repr_eq_digitsRev, repr_eq_digitsRev] at h
  exact digitsRev_inj m n (by
    have := congrArg String.data h
    rw [data_asString, data_asString] at this
    exact this)

lemma candidateName_inj (stem suffix : String) (m n : ℕ)
    (h : candidateName stem suffix m = candidateName stem suffix n) : m = n := by
  unfold candidateName at h
  have hd := congrArg String.data h
  simp only [String.data_append] at hd
  have h1 := List.append_cancel_right hd
  have h2 := List.append_cancel_left h1
  apply repr_injective
  rw [← asString_data (Nat.repr m), ← asString_data (Nat.repr n), h2]

/-- Pigeonhole: among the first `fs.length + 1` candidate names one is not
in the directory listing `fs`. -/
lemma exists_free_in_range (fs : List String) (stem suffix : String) :
    ∃ k, k < fs.length + 1 ∧ candidateName stem suffix (1 + k) ∉ fs := by
  by_contra hcon
  push_neg at hcon
  have hcard : ((Finset.range (fs.length + 1)).image
      (fun k => candidateName stem suffix (1 + k))).card = fs.length + 1 := by
    rw [Finset.card_image_of_injOn, Finset.card_range]
    intro x _ y _ hxy
    have := candidateName_inj stem suffix (1 + x) (1 + y) hxy
    omega
  have hsub : (Finset.range (fs.length + 1)).image
      (fun k => candidateName stem suffix (1 + k)) ⊆ fs.toFinset := by
    intro x hx
    obtain ⟨k, hk, rfl⟩ := Finset.mem_image.mp hx
    exact List.mem_toFinset.mpr (hcon k (Finset.mem_range.mp hk))
  have hle := Finset.card_le_card hsub
  have hlen := List.toFinset_card_le fs
  omega

/-- Correctness of the bounded collision loop: given a free candidate
within the fuel bound, the loop returns the least counter whose candidate
name is free. -/
lemma firstFreeAux_spec (fs : List String) (stem suffix : String) :
    ∀ (fuel c : ℕ), (∃ k, k < fuel ∧ candidateName stem suffix (c + k) ∉ fs) →
      candidateName stem suffix (firstFreeAux fs stem suffix fuel c) ∉ fs ∧
        c ≤ firstFreeAux fs stem suffix fuel c ∧
        ∀ j, c ≤ j → j < firstFreeAux fs stem suffix fuel c →
          candidateName stem suffix j ∈ fs := by
  intro fuel
  induction fuel with
  | zero =>
    rintro c ⟨k, hk, _⟩
    omega
  | succ fuel ih =>
    rintro c ⟨k, hk, hfree⟩
    rw [firstFreeAux]
    by_cases hc : candidateName stem suffix c ∈ fs
    · rw [if_pos hc]
      have hk0 : k ≠ 0 := by
        intro h0
        rw [h0, Nat.add_zero] at hfree
        exact hfree hc
      have hex : ∃ k', k' < fuel ∧ candidateName stem suffix (c + 1 + k') ∉ fs := by
        refine ⟨k - 1, by omega, ?_⟩
        have harith : c + 1 + (k - 1) = c + k := by omega
        rw [harith]
        exact hfree
      obtain ⟨hfree2, hle2, hall2⟩ := ih (c + 1) hex
      refine ⟨hfree2, by omega, ?_⟩
      intro j hcj hjr
      by_cases hjc : j = c
      · rw [hjc]
        exact hc
      · exact hall2 j (by omega) hjr
    · rw [if_neg hc]
      exact ⟨hc, le_refl c, fun j h1 h2 => absurd h2 (by omega)⟩

/-- C8 — collision-safe output: when the requested output path already
exists, the path actually used is `<stem>_<k><suffix>` for the least free
counter `k ≥ 1` (all smaller counters collide), it is not an existing file
(nothing is overwritten), and `process_lemmas_directory` both writes the
index there and reports that path in its result. -/
theorem collision_safe_output (fs : List String) (stem suffix : String)
    (hexists : (stem ++ suffix) ∈ fs)
    (files : List (ℕ × List (List String))) (idx : List (String × List ℕ))
    (hne : files.isEmpty = false) (hok : buildInvertedIndex files = some idx) :
    resolveOutput fs stem suffix ∉ fs ∧
      (∃ k, 1 ≤ k ∧ resolveOutput fs stem suffix = candidateName stem suffix k ∧
        ∀ j, 1 ≤ j → j < k → candidateName stem suffix j ∈ fs) ∧
      (processLemmasDirectory fs stem suffix files).1.file_path =
        some (resolveOutput fs stem suffix) ∧
      (processLemmasDirectory fs stem suffix files).2 =
        some (resolveOutput fs stem suffix, idx) := by
  obtain ⟨k0, hk0, hfree0⟩ := exists_free_in_range fs stem suffix
  obtain ⟨h1, h2, h3⟩ := firstFreeAux_spec fs stem suffix (fs.length + 1) 1
    ⟨k0, hk0, hfree0⟩
  have hro : resolveOutput fs stem suffix =
      candidateName stem suffix (firstFreeAux fs stem suffix (fs.length + 1) 1) := by
    rw [resolveOutput, if_pos hexists]
  have hpl : processLemmasDirectory fs stem suffix files =
      (⟨some (resolveOutput fs stem suffix), none⟩,
        some (resolveOutput fs stem suffix, idx)) := by
    unfold processLemmasDirectory
    rw [hne, hok]
    simp
  refine ⟨?_, ⟨firstFreeAux fs stem suffix (fs.length + 1) 1, h2, hro, h3⟩, ?_, ?_⟩
  · rw [hro]
    exact h1
  · rw [hpl]
  · rw [hpl]

/-- Witness for C8 at a concrete directory listing with two collisions. -/
theorem collision_safe_output_witness :
    (("out" ++ ".txt") ∈ fsEx) ∧ filesEx1.isEmpty = false ∧
      buildInvertedIndex filesEx1 = some idxEx1 ∧
      (resolveOutput fsEx ("out") (".txt") ∉ fsEx ∧
        (∃ k, 1 ≤ k ∧
          resolveOutput fsEx ("out") (".txt") = candidateName ("out") (".txt") k ∧
          ∀ j, 1 ≤ j → j < k → candidateName ("out") (".txt") j ∈ fsEx) ∧
        (processLemmasDirectory fsEx ("out") (".txt") filesEx1).1.file_path =
          some (resolveOutput fsEx ("out") (".txt")) ∧
        (processLemmasDirectory fsEx ("out") (".txt") filesEx1).2 =
          some (resolveOutput fsEx ("out") (".txt"), idxEx1)) :=
  ⟨by decide, by decide, by decide,
    collision_safe_output fsEx ("out") (".txt") (by decide) filesEx1 idxEx1
      (by decide) (by decide)⟩

end BoIS
